import Mathlib

/-!
Verification of the chunking core of the context-layer repository
(src/src/pipeline/embed.ts chunk module, src/src/utils tokens module).

Strings are modelled as lists of characters (`Str`).  The JavaScript
string operations used by the source (`String.prototype.split` with the
regexes /\s+/, /\n\n+/ and /(?<=[.!?])\s+/, `trim`, `padStart`,
concatenation, truthiness of strings) are embedded as executable
structural recursions below.  The token counter delegates to the external
tiktoken library, which is not part of this repository; it is modelled
from the spec (see `countTokens`).
-/

namespace ContextLayer

/-- A JavaScript string, modelled as its list of characters. -/
abbrev Str := List Char

/-- JavaScript regex whitespace class \s (ECMAScript WhiteSpace and
LineTerminator code points), used by /\s+/, /\n\n+/ context and trim. -/
def isWs (c : Char) : Bool :=
  c = ' ' || c = '\t' || c = '\n' || c = '\r' ||
  c = '\x0b' || c = '\x0c' ||
  c = ' ' || c = ' ' ||
  (0x2000 ≤ c.toNat && c.toNat ≤ 0x200a) ||
  c = ' ' || c = ' ' || c = ' ' ||
  c = ' ' || c = '　' || c = '﻿'

/-- The sentence-ending punctuation of the regex /(?<=[.!?])\s+/. -/
def isPunct (c : Char) : Bool :=
  c = '.' || c = '!' || c = '?'

/-- JavaScript `String.prototype.trim`: drop leading and trailing
whitespace. -/
def trim (s : Str) : Str :=
  (((s.dropWhile isWs).reverse).dropWhile isWs).reverse

/-- Word counting scanner: `inWord` records whether the previous
character was a non-whitespace character.  Counts maximal runs of
non-whitespace characters that start while outside a word. -/
def wcount : Bool → Str → Nat
  | _, [] => 0
  | inWord, c :: cs =>
    if isWs c then wcount false cs
    else (if inWord then 0 else 1) + wcount true cs

/-- Modelled from the spec: the Token Counter
(src/src/utils tokens module, `countTokens`) delegates to the external
tiktoken GPT-4 encoder, which is not part of this repository.  Per the
spec (section 4.1) the counter is a deterministic pure function from
strings to non-negative integers with `countTokens "" = 0`; it is
modelled here as the number of whitespace-delimited words, which
satisfies that contract and the spec's reference case
("The quick brown fox" has 4 tokens). -/
def countTokens (s : Str) : Nat := wcount false s

/-! ### JavaScript `split` embeddings -/

/-- State of the /\s+/ splitter: `some acc` means a piece is being
accumulated (in reverse); `none` means we are inside a whitespace
separator run. -/
def splitWsGo : Str → Option Str → List Str
  | [], some acc => [acc.reverse]
  | [], none => [[]]
  | c :: cs, some acc =>
    if isWs c then acc.reverse :: splitWsGo cs none
    else splitWsGo cs (some (c :: acc))
  | c :: cs, none =>
    if isWs c then splitWsGo cs none
    else splitWsGo cs (some [c])

/-- JavaScript `text.split(/\s+/)`: split on maximal runs of whitespace;
a leading or trailing run produces an empty piece, and the empty string
yields a single empty piece. -/
def splitWs (s : Str) : List Str := splitWsGo s (some [])

/-- State of the /\n\n+/ splitter. -/
inductive PState where
  /-- accumulating a piece (characters kept in reverse) -/
  | piece : Str → PState
  /-- accumulating a piece, with a single newline read but not yet
  classified (it belongs to the piece unless another newline follows) -/
  | pending : Str → PState
  /-- inside a separator run of newlines (at least two read) -/
  | sep : PState

/-- The /\n\n+/ splitter: greedy maximal runs of two or more newlines
separate the pieces. -/
def splitParasGo : Str → PState → List Str
  | [], .piece acc => [acc.reverse]
  | [], .pending acc => [('\n' :: acc).reverse]
  | [], .sep => [[]]
  | c :: cs, .piece acc =>
    if c = '\n' then splitParasGo cs (.pending acc)
    else splitParasGo cs (.piece (c :: acc))
  | c :: cs, .pending acc =>
    if c = '\n' then acc.reverse :: splitParasGo cs .sep
    else splitParasGo cs (.piece (c :: '\n' :: acc))
  | c :: cs, .sep =>
    if c = '\n' then splitParasGo cs .sep
    else splitParasGo cs (.piece [c])

/-- JavaScript `content.split(/\n\n+/)` (line 152 of the chunk module). -/
def splitParas (s : Str) : List Str := splitParasGo s (.piece [])

/-- State of the /(?<=[.!?])\s+/ splitter: `some (acc, lp)` accumulates a
piece (reversed) where `lp` records whether the last consumed character
was sentence punctuation; `none` means we are inside a separator
whitespace run. -/
def splitSentsGo : Str → Option (Str × Bool) → List Str
  | [], some (acc, _) => [acc.reverse]
  | [], none => [[]]
  | c :: cs, some (acc, lp) =>
    if lp = true ∧ isWs c then acc.reverse :: splitSentsGo cs none
    else splitSentsGo cs (some (c :: acc, isPunct c))
  | c :: cs, none =>
    if isWs c then splitSentsGo cs none
    else splitSentsGo cs (some ([c], isPunct c))

/-- JavaScript `paragraph.split(/(?<=[.!?])\s+/)` (line 170 of the chunk
module): split on whitespace runs immediately preceded by '.', '!' or
'?'; the punctuation stays attached to the preceding piece. -/
def splitSents (s : Str) : List Str := splitSentsGo s (some ([], false))

/-! ### Overlap extractor -/

/-- The loop body join used by `getOverlapText`
(`result = words[i] + (result ? ' ' + result : '')`): join pieces with
single spaces, except that a piece is placed before an empty accumulated
result without a separator. -/
def codeJoin (l : List Str) : Str :=
  l.foldr (fun w r => w ++ (if r.isEmpty then [] else ' ' :: r)) []

/-- The backward loop of `getOverlapText` (lines 124-127): `ws` is the
word list reversed, `result`/`tokens` are the loop variables. -/
def overlapGo (b : Nat) : List Str → Str → Nat → Str
  | [], result, _ => result
  | w :: ws, result, tokens =>
    if tokens < b then
      let r := w ++ (if result.isEmpty then [] else ' ' :: result)
      overlapGo b ws r (countTokens r)
    else result

/-- `getOverlapText` (chunk module lines 117-130): take words from the
end of `text` until the accumulated token count reaches the overlap
budget. -/
def getOverlapText (text : Str) (overlapTokens : Nat) : Str :=
  if overlapTokens ≤ 0 then []
  else overlapGo overlapTokens (splitWs text).reverse [] 0

/-! ### Chunking engine -/

/-- The paragraph separator '\n\n' inserted between joined paragraphs. -/
def sep2 : Str := ['\n', '\n']

/-- Mutable state of `chunkContent`: the chunks emitted so far, the
accumulator `currentChunk` and the tracked `currentTokens`. -/
structure CCState where
  chunks : List Str
  cur : Str
  curTokens : Nat
deriving DecidableEq

/-- Sentence loop body of `chunkContent` (lines 171-183). -/
def sentStep (chunkSize overlap : Nat) (st : CCState) (sentence : Str) : CCState :=
  let sentenceTokens := countTokens sentence
  if st.curTokens + sentenceTokens > chunkSize ∧ st.cur ≠ [] then
    let overlapText := getOverlapText st.cur overlap
    let newCur := overlapText ++ ' ' :: sentence
    ⟨st.chunks ++ [trim st.cur], newCur, countTokens newCur⟩
  else
    ⟨st.chunks, st.cur ++ (if st.cur.isEmpty then [] else [' ']) ++ sentence,
      st.curTokens + sentenceTokens⟩

/-- Flush of the accumulator before an oversized paragraph
(lines 163-167): only performed when `currentChunk` is truthy. -/
def flushChunk (st : CCState) : CCState :=
  if st.cur ≠ [] then ⟨st.chunks ++ [trim st.cur], [], 0⟩ else st

/-- The two small-paragraph branches of `chunkContent` (lines 184-194). -/
def paraSmall (chunkSize overlap : Nat) (st : CCState) (paragraph : Str) : CCState :=
  let paragraphTokens := countTokens paragraph
  if st.curTokens + paragraphTokens > chunkSize then
    let overlapText := getOverlapText st.cur overlap
    let newCur := overlapText ++ sep2 ++ paragraph
    ⟨st.chunks ++ [trim st.cur], newCur, countTokens newCur⟩
  else
    ⟨st.chunks, st.cur ++ (if st.cur.isEmpty then [] else sep2) ++ paragraph,
      st.curTokens + paragraphTokens⟩

/-- Paragraph loop body of `chunkContent` (lines 157-195). -/
def paraStep (chunkSize overlap : Nat) (st : CCState) (paragraph : Str) : CCState :=
  if countTokens paragraph > chunkSize then
    (splitSents paragraph).foldl (sentStep chunkSize overlap) (flushChunk st)
  else paraSmall chunkSize overlap st paragraph

/-- The final step of `chunkContent` (lines 197-200): push the trimmed
accumulator if it is truthy after trimming. -/
def finalizeChunks (st : CCState) : List Str :=
  if (trim st.cur).isEmpty then st.chunks else st.chunks ++ [trim st.cur]

/-- `chunkContent` (chunk module lines 146-203): split into paragraphs,
fold the paragraph loop, then push the trimmed accumulator if it is
non-empty. -/
def chunkContent (content : Str) (chunkSize overlap : Nat) : List Str :=
  finalizeChunks ((splitParas content).foldl (paraStep chunkSize overlap) ⟨[], [], 0⟩)

/-! ### Chunk assembler -/

/-- An extracted page as fed to `chunkPages`. -/
structure ExtractedPage where
  url : Str
  title : Str
  content : Str
  headings : List Str
deriving DecidableEq

/-- Chunk metadata (types module); the source field `section` is a Lean
keyword and is embedded as `sectionName`. -/
structure ChunkMetadata where
  source_url : Str
  title : Str
  sectionName : Str
  chunk_index : Nat
  total_chunks : Nat
deriving DecidableEq

/-- A produced chunk (types module). -/
structure Chunk where
  id : Str
  content : Str
  tokenCount : Nat
  metadata : ChunkMetadata
deriving DecidableEq

/-- Chunking options (types module); `chunkOverlap` is read with `?? 50`
so it is modelled as optional. -/
structure ChunkOptions where
  chunkSize : Nat
  chunkOverlap : Option Nat
  outputFormat : Str

/-- Options of the standalone `chunkText` (a `Partial<ChunkOptions>`). -/
structure ChunkTextOptions where
  chunkSize : Option Nat
  chunkOverlap : Option Nat

/-- `getDefaultChunkSize` (src/src/utils, format-specific default sizes). -/
def getDefaultChunkSize (outputFormat : Str) : Nat :=
  if outputFormat = "rag".data then 500
  else if outputFormat = "finetune-openai".data then 1000
  else if outputFormat = "finetune-alpaca".data then 1000
  else if outputFormat = "markdown".data then 2000
  else 500

/-- `options.chunkSize || getDefaultChunkSize(options.outputFormat)`
(line 221): zero is falsy. -/
def resolveChunkSize (o : ChunkOptions) : Nat :=
  if o.chunkSize = 0 then getDefaultChunkSize o.outputFormat else o.chunkSize

/-- Decimal digits of `n`, most significant first (empty on fuel
exhaustion, which cannot happen for `fuel > n`). -/
def natToStrGo : Nat → Nat → Str
  | 0, _ => []
  | fuel + 1, n =>
    if n = 0 then []
    else natToStrGo fuel (n / 10) ++ [Nat.digitChar (n % 10)]

/-- JavaScript `String(n)` for a natural number. -/
def natToStr (n : Nat) : Str :=
  if n = 0 then ['0'] else natToStrGo (n + 1) n

/-- JavaScript `s.padStart(4, '0')`. -/
def padStart4 (s : Str) : Str :=
  List.replicate (4 - s.length) '0' ++ s

/-- The id string `chunk-NNNN` built at lines 232 and 270. -/
def chunkIdStr (n : Nat) : Str :=
  "chunk-".data ++ padStart4 (natToStr n)

/-- The per-chunk record construction shared by `chunkPages` (inner loop,
lines 230-243) and `chunkText` (lines 269-280): `i` is the position
within the page's own chunk list and `sid` the value of the global
counter when the page started. -/
def assembleGo (url title sec : Str) (total sid : Nat) :
    List Str → Nat → List Chunk
  | [], _ => []
  | c :: cs, i =>
    { id := chunkIdStr (sid + i), content := c, tokenCount := countTokens c,
      metadata := { source_url := url, title := title, sectionName := sec,
                    chunk_index := i, total_chunks := total } } ::
      assembleGo url title sec total sid cs (i + 1)

/-- The page loop of `chunkPages` (lines 227-244) with the global chunk
id counter threaded explicitly. -/
def chunkPagesGo (chunkSize chunkOverlap : Nat) :
    List ExtractedPage → Nat → List Chunk
  | [], _ => []
  | p :: ps, sid =>
    let tcs := chunkContent p.content chunkSize chunkOverlap
    assembleGo p.url p.title (p.headings.headD []) tcs.length sid tcs 0 ++
      chunkPagesGo chunkSize chunkOverlap ps (sid + tcs.length)

/-- `chunkPages` (chunk module lines 217-248). -/
def chunkPages (pages : List ExtractedPage) (options : ChunkOptions) : List Chunk :=
  chunkPagesGo (resolveChunkSize options) (options.chunkOverlap.getD 50) pages 0

/-- `chunkText` (chunk module lines 260-281): standalone chunking of
arbitrary text with defaults 500/50 and empty source metadata, ids
numbered from 0. -/
def chunkText (text : Str) (options : ChunkTextOptions) : List Chunk :=
  let cs := match options.chunkSize with
    | none => 500
    | some n => if n = 0 then 500 else n
  let co := options.chunkOverlap.getD 50
  let tcs := chunkContent text cs co
  assembleGo [] [] [] tcs.length 0 tcs 0

/-! ### Specification-side helper definitions (used only in proofs) -/

/-- Scanner state after reading `a`, starting from `inw`. -/
def afterState (inw : Bool) (a : Str) : Bool :=
  a.foldl (fun _ c => !isWs c) inw

/-- Number of non-empty pieces in a piece list. -/
def nwords (l : List Str) : Nat :=
  (l.filter (fun p => !p.isEmpty)).length

/-- Whether a string starts with a newline. -/
def headNl : Str → Bool
  | [] => false
  | c :: _ => decide (c = '\n')

/-- Whether a string contains three consecutive newlines (a paragraph
separator run longer than the canonical two-newline one). -/
def hasTripleNl : Str → Bool
  | [] => false
  | c :: cs => (decide (c = '\n') && headNl cs && headNl cs.tail) || hasTripleNl cs

/-- Whether a string contains a two-newline paragraph separator. -/
def hasParaSep : Str → Bool
  | [] => false
  | c :: cs => (decide (c = '\n') && headNl cs) || hasParaSep cs

/-- Whether a string starts with whitespace. -/
def headWsB : Str → Bool
  | [] => false
  | c :: _ => isWs c

/-- Whether a string contains a sentence boundary: whitespace immediately
following a '.', '!' or '?' character. -/
def hasSentSep : Str → Bool
  | [] => false
  | c :: cs => (isPunct c && headWsB cs) || hasSentSep cs

/-- Join pieces with the separator `sep` between consecutive pieces. -/
def sepJoin (sep : Str) : List Str → Str
  | [] => []
  | p :: ps => p ++ (ps.map (fun q => sep ++ q)).flatten

/-- The accumulator join of the paragraph branch c of the engine
(`currentChunk += (currentChunk ? twoNewlines : emptyString) + paragraph`). -/
def joinStep (cur p : Str) : Str :=
  cur ++ (if cur.isEmpty then [] else sep2) ++ p

/-- The accumulator after folding branch c over a paragraph list. -/
def jsJoinFrom (cur : Str) (ps : List Str) : Str :=
  ps.foldl joinStep cur

/-- Numeric value of a decimal digit character. -/
def charVal (c : Char) : Nat := c.toNat - '0'.toNat

/-- Decimal decoding of a digit string (a retraction of `natToStr` used
to show id strings are injective). -/
def strToNat (s : Str) : Nat :=
  s.foldl (fun a c => a * 10 + charVal c) 0

/-- Fuel-counted version of the sentence loop: consumes one unit of fuel
per sentence; returns the state and the remaining fuel, or `none` on fuel
exhaustion. -/
def sentLoopFuel (n k : Nat) : Nat → List Str → CCState → Option (CCState × Nat)
  | fuel, [], st => some (st, fuel)
  | 0, _ :: _, _ => none
  | fuel + 1, sent :: rest, st => sentLoopFuel n k fuel rest (sentStep n k st sent)

/-- Fuel-counted version of the paragraph loop: consumes one unit of fuel
per paragraph plus one per sentence of an oversized paragraph. -/
def paraLoopFuel (n k : Nat) : Nat → List Str → CCState → Option (CCState × Nat)
  | fuel, [], st => some (st, fuel)
  | 0, _ :: _, _ => none
  | fuel + 1, p :: rest, st =>
    if countTokens p > n then
      match sentLoopFuel n k fuel (splitSents p) (flushChunk st) with
      | none => none
      | some (st2, fuel2) => paraLoopFuel n k fuel2 rest st2
    else paraLoopFuel n k fuel rest (paraSmall n k st p)

/-- The exact number of loop iterations `chunkContent` performs on the
given paragraph list. -/
def paraCost (n : Nat) (ps : List Str) : Nat :=
  (ps.map (fun p => 1 + (if countTokens p > n then (splitSents p).length else 0))).sum

/-- Fuel-counted version of `chunkContent`: `none` exactly when the loops
would need more iterations than `fuel`. -/
def chunkContentFuel (fuel : Nat) (content : Str) (n k : Nat) : Option (List Str) :=
  match paraLoopFuel n k fuel (splitParas content) ⟨[], [], 0⟩ with
  | none => none
  | some (st, _) => some (finalizeChunks st)

/-! ### Lemmas about the token counter -/

theorem afterState_nil (inw : Bool) : afterState inw [] = inw := rfl

theorem afterState_cons (inw : Bool) (c : Char) (a : Str) :
    afterState inw (c :: a) = afterState (!isWs c) a := rfl

theorem wcount_append (a : Str) : ∀ (inw : Bool) (t : Str),
    wcount inw (a ++ t) = wcount inw a + wcount (afterState inw a) t := by
  induction a with
  | nil => intro inw t; simp [wcount, afterState]
  | cons c cs ih =>
    intro inw t
    by_cases h : isWs c
    · simp [wcount, h, afterState_cons, ih false t]
    · simp [wcount, h, afterState_cons, ih true t, Nat.add_assoc]

theorem wcount_ws_cons {c : Char} (h : isWs c = true) (st : Bool) (s : Str) :
    wcount st (c :: s) = wcount false s := by
  simp [wcount, h]

theorem count_cons_ws {c : Char} (h : isWs c = true) (s : Str) :
    countTokens (c :: s) = countTokens s := by
  simp [countTokens, wcount, h]

theorem wcount_all_ws {s : Str} (h : ∀ c ∈ s, isWs c = true) (st : Bool) :
    wcount st s = 0 := by
  induction s generalizing st with
  | nil => rfl
  | cons c cs ih =>
    have hc : isWs c = true := h c (List.mem_cons_self c cs)
    rw [wcount_ws_cons hc]
    exact ih (fun d hd => h d (List.mem_cons_of_mem c hd)) false

theorem count_eq_zero_iff {s : Str} :
    countTokens s = 0 ↔ ∀ c ∈ s, isWs c = true := by
  constructor
  · intro h c hc
    induction s with
    | nil => simp at hc
    | cons d ds ih =>
      by_cases hd : isWs d
      · rw [count_cons_ws hd] at h
        rcases List.mem_cons.mp hc with hcd | hcds
        · exact hcd ▸ hd
        · exact ih h hcds
      · exfalso
        simp [countTokens, wcount, hd] at h
  · intro h; exact wcount_all_ws h false

theorem count_append_ws_cons {c : Char} (h : isWs c = true) (a b : Str) :
    countTokens (a ++ c :: b) = countTokens a + countTokens b := by
  unfold countTokens
  rw [wcount_append, wcount_ws_cons h]

theorem count_append_sep2 (a b : Str) :
    countTokens (a ++ sep2 ++ b) = countTokens a + countTokens b := by
  have : a ++ sep2 ++ b = a ++ '\n' :: '\n' :: b := by simp [sep2]
  rw [this, count_append_ws_cons (by decide)]
  rw [count_cons_ws (by decide)]

theorem count_append_space (a b : Str) :
    countTokens (a ++ ' ' :: b) = countTokens a + countTokens b :=
  count_append_ws_cons (by decide) a b

theorem count_dropWhile_ws (s : Str) :
    countTokens (s.dropWhile isWs) = countTokens s := by
  induction s with
  | nil => rfl
  | cons c cs ih =>
    by_cases h : isWs c
    · rw [List.dropWhile_cons, if_pos h, ih, count_cons_ws h]
    · rw [List.dropWhile_cons, if_neg (by simp [h])]

/-! ### Lemmas about trim -/

theorem afterState_false_of_ws {w : Str} (h : ∀ c ∈ w, isWs c = true) :
    afterState false w = false := by
  induction w with
  | nil => rfl
  | cons c cs ih =>
    rw [afterState_cons, h c (List.mem_cons_self c cs)]
    exact ih (fun d hd => h d (List.mem_cons_of_mem c hd))

theorem trim_decomp (s : Str) :
    ∃ w₁ w₂, s = w₁ ++ trim s ++ w₂ ∧ (∀ c ∈ w₁, isWs c = true) ∧
      (∀ c ∈ w₂, isWs c = true) := by
  have key : s.dropWhile isWs =
      trim s ++ ((s.dropWhile isWs).reverse.takeWhile isWs).reverse := by
    conv_lhs => rw [← List.reverse_reverse (s.dropWhile isWs)]
    conv_lhs => rw [← List.takeWhile_append_dropWhile isWs (s.dropWhile isWs).reverse]
    rw [List.reverse_append]
    rfl
  refine ⟨s.takeWhile isWs,
    ((s.dropWhile isWs).reverse.takeWhile isWs).reverse, ?_, ?_, ?_⟩
  · rw [List.append_assoc, ← key, List.takeWhile_append_dropWhile]
  · intro c hc; exact List.mem_takeWhile_imp hc
  · intro c hc
    rw [List.mem_reverse] at hc
    exact List.mem_takeWhile_imp hc

theorem count_trim (s : Str) : countTokens (trim s) = countTokens s := by
  obtain ⟨w₁, w₂, hs, h₁, h₂⟩ := trim_decomp s
  conv_rhs => rw [hs]
  unfold countTokens
  rw [wcount_append, wcount_append, wcount_all_ws h₁, wcount_all_ws h₂,
    afterState_false_of_ws h₁]
  omega

theorem trim_eq_nil_of_all_ws {s : Str} (h : ∀ c ∈ s, isWs c = true) :
    trim s = [] := by
  unfold trim
  rw [List.dropWhile_eq_nil_iff.mpr h]
  rfl

theorem trim_eq_nil_of_count_zero {s : Str} (h : countTokens s = 0) :
    trim s = [] :=
  trim_eq_nil_of_all_ws (count_eq_zero_iff.mp h)

theorem trim_ne_nil_of_count_pos {s : Str} (h : 0 < countTokens s) :
    trim s ≠ [] := by
  intro hnil
  have h0 : countTokens s = 0 := by rw [← count_trim s, hnil]; rfl
  omega

theorem trim_ws_cons {c : Char} (h : isWs c = true) (s : Str) :
    trim (c :: s) = trim s := by
  unfold trim
  rw [List.dropWhile_cons, if_pos h]

theorem trim_ws_prefix {w : Str} (h : ∀ c ∈ w, isWs c = true) (s : Str) :
    trim (w ++ s) = trim s := by
  induction w with
  | nil => rfl
  | cons c cs ih =>
    rw [List.cons_append, trim_ws_cons (h c (List.mem_cons_self c cs))]
    exact ih (fun d hd => h d (List.mem_cons_of_mem c hd))

/-! ### Lemmas about the whitespace splitter and the overlap loop -/

theorem nwords_append (l₁ l₂ : List Str) :
    nwords (l₁ ++ l₂) = nwords l₁ + nwords l₂ := by
  simp [nwords, List.filter_append]

theorem splitWsGo_ws_free : ∀ (s : Str) (st : Option Str),
    (∀ acc, st = some acc → ∀ c ∈ acc, isWs c = false) →
    ∀ p ∈ splitWsGo s st, ∀ c ∈ p, isWs c = false := by
  intro s
  induction s with
  | nil =>
    intro st hst p hp c hc
    match st with
    | some acc =>
      simp only [splitWsGo, List.mem_singleton] at hp
      subst hp
      rw [List.mem_reverse] at hc
      exact hst acc rfl c hc
    | none => simp [splitWsGo] at hp; simp [hp] at hc
  | cons d ds ih =>
    intro st hst p hp c hc
    match st with
    | some acc =>
      by_cases hd : isWs d
      · simp only [splitWsGo, hd, if_pos] at hp
        rcases List.mem_cons.mp hp with h1 | h2
        · subst h1
          rw [List.mem_reverse] at hc
          exact hst acc rfl c hc
        · exact ih none (by intro a ha; cases ha) p h2 c hc
      · simp only [splitWsGo, hd] at hp
        refine ih (some (d :: acc)) ?_ p hp c hc
        intro a ha e he
        cases ha
        rcases List.mem_cons.mp he with h1 | h2
        · subst h1; simpa using hd
        · exact hst acc rfl e h2
    | none =>
      by_cases hd : isWs d
      · simp only [splitWsGo, hd, if_pos] at hp
        exact ih none (by intro a ha; cases ha) p hp c hc
      · simp only [splitWsGo, hd] at hp
        refine ih (some [d]) ?_ p hp c hc
        intro a ha e he
        cases ha
        rcases List.mem_cons.mp he with h1 | h2
        · subst h1; simpa using hd
        · cases h2

theorem splitWs_ws_free (s : Str) : ∀ p ∈ splitWs s, ∀ c ∈ p, isWs c = false :=
  splitWsGo_ws_free s (some []) (by intro acc h c hc; cases h; cases hc)

theorem nwords_cons (p : Str) (l : List Str) :
    nwords (p :: l) = (if p.isEmpty then 0 else 1) + nwords l := by
  simp only [nwords, List.filter_cons]
  by_cases h : p.isEmpty
  · simp [h]
  · rw [show p.isEmpty = false by simpa using h]
    simp [List.length_cons, Nat.add_comm]

theorem isEmpty_reverse (l : Str) : l.reverse.isEmpty = l.isEmpty := by
  cases h : l.reverse with
  | nil =>
    rw [List.reverse_eq_nil_iff] at h
    rw [h]
  | cons a as =>
    have : l ≠ [] := by
      intro hl
      rw [hl] at h
      cases h
    match l, this with
    | b :: bs, _ => rfl

theorem wcount_nonws_cons {c : Char} (h : isWs c = false) (st : Bool) (s : Str) :
    wcount st (c :: s) = (if st then 0 else 1) + wcount true s := by
  simp [wcount, h]

theorem nwords_splitWsGo : ∀ (s : Str),
    (∀ acc, nwords (splitWsGo s (some acc)) =
      (if acc.isEmpty then 0 else 1) + wcount (!acc.isEmpty) s) ∧
    nwords (splitWsGo s none) = wcount false s := by
  intro s
  induction s with
  | nil =>
    constructor
    · intro acc
      show nwords [acc.reverse] = _
      rw [nwords_cons, isEmpty_reverse]
      simp [nwords, wcount]
    · simp [splitWsGo, nwords, wcount]
  | cons d ds ih =>
    constructor
    · intro acc
      by_cases hd : isWs d
      · rw [show splitWsGo (d :: ds) (some acc) = acc.reverse :: splitWsGo ds none by
          simp [splitWsGo, hd]]
        rw [nwords_cons, isEmpty_reverse, ih.2, wcount_ws_cons hd]
      · rw [show splitWsGo (d :: ds) (some acc) = splitWsGo ds (some (d :: acc)) by
          simp [splitWsGo, hd]]
        rw [(ih.1) (d :: acc), wcount_nonws_cons (by simpa using hd)]
        simp only [List.isEmpty_cons, Bool.not_false]
        by_cases h : acc.isEmpty <;> simp [h]
    · by_cases hd : isWs d
      · rw [show splitWsGo (d :: ds) none = splitWsGo ds none by
          simp [splitWsGo, hd]]
        rw [ih.2, wcount_ws_cons hd]
      · rw [show splitWsGo (d :: ds) none = splitWsGo ds (some [d]) by
          simp [splitWsGo, hd]]
        rw [(ih.1) [d], wcount_nonws_cons (by simpa using hd)]
        simp

theorem count_eq_nwords_splitWs (s : Str) :
    countTokens s = nwords (splitWs s) := by
  rw [show splitWs s = splitWsGo s (some []) from rfl, (nwords_splitWsGo s).1]
  simp [countTokens]

/-! ### Lemmas about codeJoin -/

theorem codeJoin_nil : codeJoin [] = [] := rfl

theorem codeJoin_cons (w : Str) (l : List Str) :
    codeJoin (w :: l) =
      w ++ (if (codeJoin l).isEmpty then [] else ' ' :: codeJoin l) := rfl

theorem codeJoin_eq_nil_iff {l : List Str} :
    codeJoin l = [] ↔ ∀ p ∈ l, p = [] := by
  induction l with
  | nil => simp [codeJoin_nil]
  | cons w ws ih =>
    rw [codeJoin_cons]
    constructor
    · intro h
      rcases List.append_eq_nil.mp h with ⟨hw, hrest⟩
      intro p hp
      rcases List.mem_cons.mp hp with h1 | h2
      · exact h1 ▸ hw
      · refine ih.mp ?_ p h2
        by_cases he : (codeJoin ws).isEmpty
        · exact List.isEmpty_iff.mp he
        · rw [if_neg he] at hrest; cases hrest
    · intro h
      have hw : w = [] := h w (List.mem_cons_self w ws)
      have hws : codeJoin ws = [] :=
        ih.mpr (fun p hp => h p (List.mem_cons_of_mem w hp))
      rw [hw, hws]
      rfl

theorem wcount_true_ws_free {w : Str} (h : ∀ c ∈ w, isWs c = false) :
    wcount true w = 0 := by
  induction w with
  | nil => rfl
  | cons c cs ih =>
    have hc : isWs c = false := h c (List.mem_cons_self c cs)
    rw [wcount_nonws_cons hc]
    simpa using ih (fun d hd => h d (List.mem_cons_of_mem c hd))

theorem count_ws_free_word {w : Str} (h : ∀ c ∈ w, isWs c = false) :
    countTokens w = if w.isEmpty then 0 else 1 := by
  match w with
  | [] => rfl
  | c :: cs =>
    have hc : isWs c = false := h c (List.mem_cons_self c cs)
    show wcount false (c :: cs) = _
    rw [wcount_nonws_cons hc,
      wcount_true_ws_free (fun d hd => h d (List.mem_cons_of_mem c hd))]
    simp

theorem count_codeJoin {l : List Str}
    (h : ∀ p ∈ l, ∀ c ∈ p, isWs c = false) :
    countTokens (codeJoin l) = nwords l := by
  induction l with
  | nil => rfl
  | cons w ws ih =>
    have hw : ∀ c ∈ w, isWs c = false := h w (List.mem_cons_self w ws)
    have hws := ih (fun p hp => h p (List.mem_cons_of_mem w hp))
    rw [codeJoin_cons, nwords_cons]
    by_cases he : (codeJoin ws).isEmpty
    · have hnil : codeJoin ws = [] := List.isEmpty_iff.mp he
      have hz : nwords ws = 0 := by
        rw [← hws, hnil]; rfl
      rw [if_pos he, List.append_nil, count_ws_free_word hw, hz]
      simp
    · rw [if_neg he, count_append_space, hws, count_ws_free_word hw]

theorem codeJoin_suffix_append : ∀ (l₁ l₂ : List Str),
    codeJoin l₂ <:+ codeJoin (l₁ ++ l₂) := by
  intro l₁ l₂
  induction l₁ with
  | nil => exact List.suffix_refl _
  | cons w ws ih =>
    rw [List.cons_append, codeJoin_cons]
    by_cases he : (codeJoin (ws ++ l₂)).isEmpty
    · have : codeJoin l₂ = [] := by
        rcases ih with ⟨t, ht⟩
        have : codeJoin (ws ++ l₂) = [] := List.isEmpty_iff.mp he
        rw [this] at ht
        exact (List.append_eq_nil.mp ht).2
      rw [this]
      exact List.nil_suffix
    · rw [if_neg he]
      exact ih.trans ⟨w ++ [' '], by simp⟩

/-! ### The overlap loop specification -/

theorem overlapGo_stop {b : Nat} (l : List Str) (res : Str) (tok : Nat)
    (h : ¬ tok < b) : overlapGo b l res tok = res := by
  cases l with
  | nil => rfl
  | cons w ws => simp [overlapGo, h]

theorem overlapGo_spec (b : Nat) : ∀ (rs done : List Str),
    countTokens (codeJoin done) < b →
    ∃ k, k ≤ rs.length ∧
      overlapGo b rs (codeJoin done) (countTokens (codeJoin done)) =
        codeJoin ((rs.take k).reverse ++ done) ∧
      (k = rs.length ∨
        (b ≤ countTokens (codeJoin ((rs.take k).reverse ++ done)) ∧
         countTokens (codeJoin (((rs.take k).reverse ++ done).tail)) < b)) := by
  intro rs
  induction rs with
  | nil =>
    intro done h
    exact ⟨0, Nat.le_refl 0, by simp [overlapGo], Or.inl rfl⟩
  | cons w ws ih =>
    intro done h
    have hstep : overlapGo b (w :: ws) (codeJoin done) (countTokens (codeJoin done)) =
        overlapGo b ws (codeJoin (w :: done)) (countTokens (codeJoin (w :: done))) := by
      simp only [overlapGo, if_pos h]
      rfl
    by_cases hlt : countTokens (codeJoin (w :: done)) < b
    · obtain ⟨k, hk, heq, hstop⟩ := ih (w :: done) hlt
      refine ⟨k + 1, by simpa using Nat.succ_le_succ hk, ?_, ?_⟩
      · rw [hstep, heq, List.take_succ_cons, List.reverse_cons, List.append_assoc]
        rfl
      · rcases hstop with h1 | h2
        · exact Or.inl (by simp [h1])
        · refine Or.inr ?_
          rw [List.take_succ_cons, List.reverse_cons, List.append_assoc]
          exact h2
    · refine ⟨1, by simp, ?_, ?_⟩
      · rw [hstep, overlapGo_stop _ _ _ hlt]
        simp
      · refine Or.inr ?_
        simp only [List.take_succ_cons, List.take_zero, List.reverse_cons,
          List.reverse_nil, List.nil_append, List.singleton_append, List.tail_cons]
        exact ⟨Nat.le_of_not_lt hlt, h⟩

/-- Characterization of `getOverlapText` for a positive budget: the
result is the loop join of a suffix of the whitespace-split piece list,
and either every piece was taken or the loop stopped exactly when the
accumulated token count reached the budget (the tail of the taken pieces
is still under budget). -/
theorem getOverlapText_spec (s : Str) (b : Nat) (hb : 0 < b) :
    ∃ l₁ l₂, splitWs s = l₁ ++ l₂ ∧ getOverlapText s b = codeJoin l₂ ∧
      (l₁ = [] ∨
        (b ≤ countTokens (codeJoin l₂) ∧ countTokens (codeJoin l₂.tail) < b)) := by
  unfold getOverlapText
  rw [if_neg (by omega)]
  have h0 : countTokens (codeJoin ([] : List Str)) < b := by
    simpa [codeJoin_nil, countTokens, wcount] using hb
  obtain ⟨k, hk, heq, hstop⟩ := overlapGo_spec b (splitWs s).reverse [] h0
  have hL : ((splitWs s).reverse.take k).reverse =
      (splitWs s).drop ((splitWs s).length - k) := by
    rw [List.take_reverse, List.reverse_reverse]
  simp only [codeJoin_nil, show countTokens ([] : Str) = 0 from rfl,
    List.append_nil, List.length_reverse, hL] at heq hstop hk
  refine ⟨(splitWs s).take ((splitWs s).length - k),
    (splitWs s).drop ((splitWs s).length - k), ?_, heq, ?_⟩
  · rw [List.take_append_drop]
  · rcases hstop with h1 | h2
    · refine Or.inl ?_
      subst h1
      simp
    · exact Or.inr h2

/-! ### Lemmas about the paragraph splitter -/

theorem sepJoin_cons_of_ne_nil (sep p : Str) {ps : List Str} (h : ps ≠ []) :
    sepJoin sep (p :: ps) = p ++ sep ++ sepJoin sep ps := by
  match ps, h with
  | q :: qs, _ =>
    show p ++ ((sep ++ q) :: (qs.map (fun r => sep ++ r))).flatten = _
    simp [sepJoin, List.append_assoc]

theorem splitParasGo_ne_nil : ∀ (s : Str) (st : PState), splitParasGo s st ≠ [] := by
  intro s
  induction s with
  | nil => intro st; cases st <;> simp [splitParasGo]
  | cons c cs ih =>
    intro st
    cases st with
    | piece acc =>
      by_cases hc : c = '\n'
      · simpa [splitParasGo, hc] using ih (.pending acc)
      · simpa [splitParasGo, hc] using ih (.piece (c :: acc))
    | pending acc =>
      by_cases hc : c = '\n'
      · simp [splitParasGo, hc]
      · simpa [splitParasGo, hc] using ih (.piece (c :: '\n' :: acc))
    | sep =>
      by_cases hc : c = '\n'
      · simpa [splitParasGo, hc] using ih .sep
      · simpa [splitParasGo, hc] using ih (.piece [c])

theorem hasTripleNl_cons_decomp {c : Char} {cs : Str}
    (h : hasTripleNl (c :: cs) = false) :
    (decide (c = '\n') && headNl cs && headNl cs.tail) = false ∧
      hasTripleNl cs = false := by
  have : hasTripleNl (c :: cs) =
      ((decide (c = '\n') && headNl cs && headNl cs.tail) || hasTripleNl cs) := rfl
  rw [this] at h
  exact ⟨(Bool.or_eq_false_iff.mp h).1, (Bool.or_eq_false_iff.mp h).2⟩

theorem spGo_sepJoin : ∀ s : Str,
    (∀ acc, hasTripleNl s = false →
      sepJoin sep2 (splitParasGo s (.piece acc)) = acc.reverse ++ s) ∧
    (∀ acc, hasTripleNl ('\n' :: s) = false →
      sepJoin sep2 (splitParasGo s (.pending acc)) = acc.reverse ++ '\n' :: s) ∧
    (headNl s = false → hasTripleNl s = false →
      sepJoin sep2 (splitParasGo s .sep) = s) := by
  intro s
  induction s with
  | nil =>
    refine ⟨?_, ?_, ?_⟩
    · intro acc _; simp [splitParasGo, sepJoin]
    · intro acc _; simp [splitParasGo, sepJoin, List.reverse_cons]
    · intro _ _; simp [splitParasGo, sepJoin]
  | cons c cs ih =>
    obtain ⟨ihP, ihD, ihS⟩ := ih
    refine ⟨?_, ?_, ?_⟩
    · intro acc h
      by_cases hc : c = '\n'
      · subst hc
        rw [show splitParasGo ('\n' :: cs) (.piece acc) =
          splitParasGo cs (.pending acc) by simp [splitParasGo]]
        exact ihD acc h
      · rw [show splitParasGo (c :: cs) (.piece acc) =
          splitParasGo cs (.piece (c :: acc)) by simp [splitParasGo, hc]]
        rw [ihP (c :: acc) (hasTripleNl_cons_decomp h).2]
        simp
    · intro acc h
      by_cases hc : c = '\n'
      · subst hc
        rw [show splitParasGo ('\n' :: cs) (.pending acc) =
          acc.reverse :: splitParasGo cs .sep by simp [splitParasGo]]
        obtain ⟨hcl, hrest⟩ := hasTripleNl_cons_decomp h
        obtain ⟨hcl2, hrest2⟩ := hasTripleNl_cons_decomp hrest
        have hhead : headNl cs = false := by
          simpa [headNl] using hcl
        rw [sepJoin_cons_of_ne_nil sep2 acc.reverse (splitParasGo_ne_nil cs .sep)]
        rw [ihS hhead hrest2]
        simp [sep2, List.append_assoc]
      · rw [show splitParasGo (c :: cs) (.pending acc) =
          splitParasGo cs (.piece (c :: '\n' :: acc)) by simp [splitParasGo, hc]]
        obtain ⟨_, hrest⟩ := hasTripleNl_cons_decomp h
        rw [ihP (c :: '\n' :: acc) (hasTripleNl_cons_decomp hrest).2]
        simp
    · intro hh h
      have hc : ¬ c = '\n' := by simpa [headNl] using hh
      rw [show splitParasGo (c :: cs) .sep =
        splitParasGo cs (.piece [c]) by simp [splitParasGo, hc]]
      rw [ihP [c] (hasTripleNl_cons_decomp h).2]
      simp

/-- If the content has no run of three or more newlines, joining the
paragraph pieces back with a double newline reconstructs the content. -/
theorem sepJoin_splitParas {s : Str} (h : hasTripleNl s = false) :
    sepJoin sep2 (splitParas s) = s := by
  have := (spGo_sepJoin s).1 [] h
  simpa [splitParas] using this

theorem spGo_sumCount : ∀ s : Str,
    (∀ acc, ((splitParasGo s (.piece acc)).map countTokens).sum =
      countTokens (acc.reverse ++ s)) ∧
    (∀ acc, ((splitParasGo s (.pending acc)).map countTokens).sum =
      countTokens (acc.reverse ++ '\n' :: s)) ∧
    ((splitParasGo s .sep).map countTokens).sum = countTokens s := by
  intro s
  induction s with
  | nil =>
    refine ⟨?_, ?_, ?_⟩
    · intro acc; simp [splitParasGo]
    · intro acc; simp [splitParasGo, List.reverse_cons]
    · simp [splitParasGo]
  | cons c cs ih =>
    obtain ⟨ihP, ihD, ihS⟩ := ih
    refine ⟨?_, ?_, ?_⟩
    · intro acc
      by_cases hc : c = '\n'
      · subst hc
        rw [show splitParasGo ('\n' :: cs) (.piece acc) =
          splitParasGo cs (.pending acc) by simp [splitParasGo]]
        exact ihD acc
      · rw [show splitParasGo (c :: cs) (.piece acc) =
          splitParasGo cs (.piece (c :: acc)) by simp [splitParasGo, hc]]
        rw [ihP (c :: acc)]
        congr 1
        simp
    · intro acc
      by_cases hc : c = '\n'
      · subst hc
        rw [show splitParasGo ('\n' :: cs) (.pending acc) =
          acc.reverse :: splitParasGo cs .sep by simp [splitParasGo]]
        rw [List.map_cons, List.sum_cons, ihS]
        rw [count_append_ws_cons (by decide : isWs '\n' = true),
          count_cons_ws (by decide : isWs '\n' = true)]
      · rw [show splitParasGo (c :: cs) (.pending acc) =
          splitParasGo cs (.piece (c :: '\n' :: acc)) by simp [splitParasGo, hc]]
        rw [ihP (c :: '\n' :: acc)]
        congr 1
        simp
    · by_cases hc : c = '\n'
      · subst hc
        rw [show splitParasGo ('\n' :: cs) .sep =
          splitParasGo cs .sep by simp [splitParasGo]]
        rw [ihS, count_cons_ws (by decide : isWs '\n' = true)]
      · rw [show splitParasGo (c :: cs) .sep =
          splitParasGo cs (.piece [c]) by simp [splitParasGo, hc]]
        rw [ihP [c]]
        rfl

/-- The paragraph token counts sum to the content token count. -/
theorem sum_count_splitParas (s : Str) :
    ((splitParas s).map countTokens).sum = countTokens s := by
  have := (spGo_sumCount s).1 []
  simpa [splitParas] using this

theorem splitParas_single : ∀ (s : Str),
    (∀ acc, hasParaSep s = false →
      splitParasGo s (.piece acc) = [acc.reverse ++ s]) ∧
    (∀ acc, headNl s = false → hasParaSep s = false →
      splitParasGo s (.pending acc) = [acc.reverse ++ '\n' :: s]) := by
  intro s
  induction s with
  | nil =>
    refine ⟨?_, ?_⟩
    · intro acc _; simp [splitParasGo]
    · intro acc _ _; simp [splitParasGo, List.reverse_cons]
  | cons c cs ih =>
    obtain ⟨ihP, ihD⟩ := ih
    refine ⟨?_, ?_⟩
    · intro acc h
      have hdec : (decide (c = '\n') && headNl cs) = false ∧ hasParaSep cs = false := by
        have e : hasParaSep (c :: cs) =
            ((decide (c = '\n') && headNl cs) || hasParaSep cs) := rfl
        rw [e] at h
        exact ⟨(Bool.or_eq_false_iff.mp h).1, (Bool.or_eq_false_iff.mp h).2⟩
      by_cases hc : c = '\n'
      · subst hc
        rw [show splitParasGo ('\n' :: cs) (.piece acc) =
          splitParasGo cs (.pending acc) by simp [splitParasGo]]
        have hhead : headNl cs = false := by simpa using hdec.1
        exact ihD acc hhead hdec.2
      · rw [show splitParasGo (c :: cs) (.piece acc) =
          splitParasGo cs (.piece (c :: acc)) by simp [splitParasGo, hc]]
        rw [ihP (c :: acc) hdec.2]
        simp
    · intro acc hh h
      have hc : ¬ c = '\n' := by simpa [headNl] using hh
      rw [show splitParasGo (c :: cs) (.pending acc) =
        splitParasGo cs (.piece (c :: '\n' :: acc)) by simp [splitParasGo, hc]]
      have hdec : hasParaSep cs = false := by
        have e : hasParaSep (c :: cs) =
            ((decide (c = '\n') && headNl cs) || hasParaSep cs) := rfl
        rw [e] at h
        exact (Bool.or_eq_false_iff.mp h).2
      rw [ihP (c :: '\n' :: acc) hdec]
      simp

/-- A string without a paragraph separator is a single paragraph. -/
theorem splitParas_eq_single {s : Str} (h : hasParaSep s = false) :
    splitParas s = [s] := by
  have := (splitParas_single s).1 [] h
  simpa [splitParas] using this

/-! ### Lemmas about the sentence splitter -/

theorem splitSentsGo_single : ∀ (s : Str) (acc : Str) (lp : Bool),
    hasSentSep s = false → (lp = true → headWsB s = false) →
    splitSentsGo s (some (acc, lp)) = [acc.reverse ++ s] := by
  intro s
  induction s with
  | nil => intro acc lp _ _; simp [splitSentsGo]
  | cons c cs ih =>
    intro acc lp h hlp
    have hdec : (isPunct c && headWsB cs) = false ∧ hasSentSep cs = false := by
      have e : hasSentSep (c :: cs) = ((isPunct c && headWsB cs) || hasSentSep cs) := rfl
      rw [e] at h
      exact ⟨(Bool.or_eq_false_iff.mp h).1, (Bool.or_eq_false_iff.mp h).2⟩
    have hcond : ¬ (lp = true ∧ isWs c = true) := by
      rintro ⟨hlp2, hwsc⟩
      have := hlp hlp2
      simp [headWsB, hwsc] at this
    rw [show splitSentsGo (c :: cs) (some (acc, lp)) =
      splitSentsGo cs (some (c :: acc, isPunct c)) by simp [splitSentsGo, hcond]]
    rw [ih (c :: acc) (isPunct c) hdec.2 (fun hp => by simpa [hp] using hdec.1)]
    simp

/-- A string without a sentence boundary is a single sentence. -/
theorem splitSents_eq_single {s : Str} (h : hasSentSep s = false) :
    splitSents s = [s] := by
  have := splitSentsGo_single s [] false h (by intro hh; cases hh)
  simpa [splitSents] using this

/-! ### The small-content trace of the chunking engine -/

theorem count_joinStep (cur p : Str) :
    countTokens (joinStep cur p) = countTokens cur + countTokens p := by
  unfold joinStep
  by_cases h : cur.isEmpty
  · have : cur = [] := List.isEmpty_iff.mp h
    subst this
    simp [countTokens, wcount]
  · rw [if_neg h, count_append_sep2]

theorem count_jsJoinFrom (ps : List Str) : ∀ (cur : Str),
    countTokens (jsJoinFrom cur ps) =
      countTokens cur + (ps.map countTokens).sum := by
  induction ps with
  | nil => intro cur; simp [jsJoinFrom]
  | cons p ps ih =>
    intro cur
    show countTokens (jsJoinFrom (joinStep cur p) ps) = _
    rw [ih (joinStep cur p), count_joinStep]
    simp [Nat.add_assoc]

theorem jsJoinFrom_ne_nil (ps : List Str) : ∀ (cur : Str), cur ≠ [] →
    jsJoinFrom cur ps = cur ++ (ps.map (fun q => sep2 ++ q)).flatten := by
  induction ps with
  | nil => intro cur _; simp [jsJoinFrom]
  | cons p ps ih =>
    intro cur hcur
    show jsJoinFrom (joinStep cur p) ps = _
    have hne : joinStep cur p ≠ [] := by
      unfold joinStep
      intro hh
      exact hcur (List.append_eq_nil.mp ((List.append_eq_nil.mp hh).1)).1
    rw [ih (joinStep cur p) hne]
    unfold joinStep
    rw [if_neg (by simpa [List.isEmpty_iff] using hcur)]
    simp [List.append_assoc]

theorem trim_jsJoinFrom_eq_trim_sepJoin : ∀ (ps : List Str),
    trim (jsJoinFrom [] ps) = trim (sepJoin sep2 ps) := by
  intro ps
  induction ps with
  | nil => rfl
  | cons p ps ih =>
    by_cases hp : p = []
    · subst hp
      have e1 : jsJoinFrom ([] : Str) ([] :: ps) = jsJoinFrom [] ps := rfl
      rw [e1, ih]
      cases ps with
      | nil => rfl
      | cons q qs =>
        have e2 : sepJoin sep2 ([] :: q :: qs) = sep2 ++ sepJoin sep2 (q :: qs) := by
          rw [sepJoin_cons_of_ne_nil sep2 [] (by simp)]
          simp
        rw [e2, trim_ws_prefix (by decide : ∀ c ∈ sep2, isWs c = true)]
    · have e1 : jsJoinFrom ([] : Str) (p :: ps) = jsJoinFrom p ps := by
        show jsJoinFrom (joinStep [] p) ps = _
        rfl
      rw [e1, jsJoinFrom_ne_nil ps p hp]
      rfl

theorem count_pos_of_nonws {s : Str} (h : ∃ c ∈ s, isWs c = false) :
    0 < countTokens s := by
  rcases Nat.eq_zero_or_pos (countTokens s) with h0 | h1
  · obtain ⟨c, hc, hcw⟩ := h
    have := count_eq_zero_iff.mp h0 c hc
    rw [this] at hcw
    cases hcw
  · exact h1

/-- Folding the paragraph loop over paragraphs that all fit (together
with the accumulator) within the budget never flushes: the accumulator
simply joins the paragraphs with a double newline. -/
theorem foldl_paraStep_small (n k : Nat) : ∀ (ps : List Str) (chs : List Str) (cur : Str),
    countTokens cur + (ps.map countTokens).sum ≤ n →
    ps.foldl (paraStep n k) ⟨chs, cur, countTokens cur⟩ =
      ⟨chs, jsJoinFrom cur ps, countTokens (jsJoinFrom cur ps)⟩ := by
  intro ps
  induction ps with
  | nil => intro chs cur h; simp [jsJoinFrom]
  | cons p ps ih =>
    intro chs cur h
    rw [List.map_cons, List.sum_cons] at h
    have hp : ¬ countTokens p > n := by omega
    have hb : ¬ countTokens cur + countTokens p > n := by omega
    have e1 : paraStep n k ⟨chs, cur, countTokens cur⟩ p =
        ⟨chs, joinStep cur p, countTokens (joinStep cur p)⟩ := by
      unfold paraStep paraSmall
      rw [if_neg hp, if_neg hb, count_joinStep]
      rfl
    rw [List.foldl_cons, e1, ih chs (joinStep cur p) (by rw [count_joinStep]; omega)]
    rfl

/-! ### Claim C1 -/

/-- C1 counterexample: the claim fails as stated.  The empty string has
token count 0 ≤ chunkSize but produces zero chunks (not one chunk equal
to its trim), and a content whose paragraph separator is a run of three
newlines is under budget but is returned with the separator collapsed to
two newlines, so the single chunk differs from `content.trim()`. -/
theorem C1_counterexample :
    (countTokens "".data ≤ 5 ∧ chunkContent "".data 5 0 ≠ [trim "".data]) ∧
    (countTokens "a\n\n\nb".data ≤ 5 ∧
      chunkContent "a\n\n\nb".data 5 0 ≠ [trim "a\n\n\nb".data]) := by
  decide

/-- C1 (amended): for every content that contains at least one
non-whitespace character, in which no run of three or more consecutive
newlines occurs, with chunkSize > 0, overlap ≥ 0 and total token count at
most chunkSize, `chunkContent` returns exactly one chunk, and that chunk
equals `content.trim()`. -/
theorem C1_single_chunk_under_budget (content : Str) (n k : Nat)
    (_hn : 0 < n)
    (hnonws : ∃ c ∈ content, isWs c = false)
    (h3 : hasTripleNl content = false)
    (hcount : countTokens content ≤ n) :
    chunkContent content n k = [trim content] := by
  have hsum : ((splitParas content).map countTokens).sum = countTokens content :=
    sum_count_splitParas content
  have h0 : countTokens ([] : Str) = 0 := rfl
  have hfold := foldl_paraStep_small n k (splitParas content) [] []
    (by rw [h0, hsum]; omega)
  have hinit : (⟨[], [], 0⟩ : CCState) = ⟨[], [], countTokens []⟩ := rfl
  rw [show chunkContent content n k =
    finalizeChunks ((splitParas content).foldl (paraStep n k) ⟨[], [], 0⟩) from rfl,
    hinit, hfold]
  unfold finalizeChunks
  have hcJ : countTokens (jsJoinFrom [] (splitParas content)) =
      countTokens content := by
    rw [count_jsJoinFrom, h0, hsum]
    omega
  have hpos : 0 < countTokens (jsJoinFrom [] (splitParas content)) := by
    rw [hcJ]
    exact count_pos_of_nonws hnonws
  have htne : ¬ (trim (jsJoinFrom [] (splitParas content))).isEmpty = true := by
    simpa [List.isEmpty_iff] using trim_ne_nil_of_count_pos hpos
  rw [if_neg htne, List.nil_append,
    trim_jsJoinFrom_eq_trim_sepJoin, sepJoin_splitParas h3]

/-- C1 witness: a two-word content under a budget of 5 yields a single
trimmed chunk. -/
theorem C1_witness :
    0 < 5 ∧ (∃ c ∈ "a b".data, isWs c = false) ∧
    hasTripleNl "a b".data = false ∧ countTokens "a b".data ≤ 5 ∧
    chunkContent "a b".data 5 0 = [trim "a b".data] :=
  ⟨by decide, by decide, by decide, by decide,
    C1_single_chunk_under_budget "a b".data 5 0 (by decide) (by decide)
      (by decide) (by decide)⟩

/-! ### Claim C2 -/

/-- C2: for every chunkSize n > 0 and overlap k ≥ 0, `chunkContent`
returns the empty sequence on the empty string and on every
whitespace-only string. -/
theorem C2_empty_and_ws_only (n k : Nat) (hn : 0 < n) :
    chunkContent [] n k = [] ∧
    ∀ s : Str, (∀ c ∈ s, isWs c = true) → chunkContent s n k = [] := by
  have main : ∀ s : Str, (∀ c ∈ s, isWs c = true) → chunkContent s n k = [] := by
    intro s hws
    have hc0 : countTokens s = 0 := count_eq_zero_iff.mpr hws
    have hsum : ((splitParas s).map countTokens).sum = countTokens s :=
      sum_count_splitParas s
    have h0 : countTokens ([] : Str) = 0 := rfl
    have hfold := foldl_paraStep_small n k (splitParas s) [] []
      (by rw [h0, hsum, hc0]; omega)
    have hinit : (⟨[], [], 0⟩ : CCState) = ⟨[], [], countTokens []⟩ := rfl
    rw [show chunkContent s n k =
      finalizeChunks ((splitParas s).foldl (paraStep n k) ⟨[], [], 0⟩) from rfl,
      hinit, hfold]
    unfold finalizeChunks
    have hcJ : countTokens (jsJoinFrom [] (splitParas s)) = 0 := by
      rw [count_jsJoinFrom, h0, hsum, hc0]
    rw [if_pos (by simp [trim_eq_nil_of_count_zero hcJ])]
  exact ⟨main [] (by intro c hc; cases hc), main⟩

/-- C2 witness: the empty string and a concrete whitespace-only string
both produce zero chunks at chunkSize 1, overlap 0. -/
theorem C2_witness :
    chunkContent [] 1 0 = [] ∧ chunkContent "   \n\n  ".data 1 0 = [] :=
  ⟨(C2_empty_and_ws_only 1 0 (by decide)).1,
    (C2_empty_and_ws_only 1 0 (by decide)).2 "   \n\n  ".data (by decide)⟩

/-! ### Claim C3 -/

/-- C3: a single indivisible sentence longer than chunkSize is kept
whole.  If the content contains no paragraph separator (two consecutive
newlines) and no sentence boundary (whitespace following '.', '!' or
'?'), and its token count exceeds chunkSize > 0, `chunkContent` returns
exactly one chunk equal to the trimmed input. -/
theorem C3_indivisible_sentence_kept_whole (content : Str) (n k : Nat)
    (_hn : 0 < n)
    (hp : hasParaSep content = false)
    (hs : hasSentSep content = false)
    (hbig : n < countTokens content) :
    chunkContent content n k = [trim content] := by
  rw [show chunkContent content n k =
    finalizeChunks ((splitParas content).foldl (paraStep n k) ⟨[], [], 0⟩) from rfl]
  rw [splitParas_eq_single hp, List.foldl_cons, List.foldl_nil]
  have e1 : paraStep n k ⟨[], [], 0⟩ content =
      ⟨[], content, countTokens content⟩ := by
    unfold paraStep
    rw [if_pos (by omega : countTokens content > n)]
    have hfl : flushChunk ⟨[], [], 0⟩ = ⟨[], [], 0⟩ := by
      unfold flushChunk
      simp
    rw [hfl, splitSents_eq_single hs, List.foldl_cons, List.foldl_nil]
    unfold sentStep
    rw [if_neg (by simp)]
    simp
  rw [e1]
  unfold finalizeChunks
  have htne : ¬ (trim content).isEmpty = true := by
    have : 0 < countTokens content := by omega
    simpa [List.isEmpty_iff] using trim_ne_nil_of_count_pos this
  rw [if_neg htne, List.nil_append]

/-- C3 witness: a three-word sentence without sentence punctuation, over
a budget of 2 (with overlap 50 ≥ chunkSize), is kept whole. -/
theorem C3_witness :
    0 < 2 ∧ hasParaSep "one two three".data = false ∧
    hasSentSep "one two three".data = false ∧
    2 < countTokens "one two three".data ∧
    chunkContent "one two three".data 2 50 = [trim "one two three".data] :=
  ⟨by decide, by decide, by decide, by decide,
    C3_indivisible_sentence_kept_whole "one two three".data 2 50 (by decide)
      (by decide) (by decide) (by decide)⟩

/-! ### Claims C4, C5, C10 -/

/-- C4 counterexample: on a source text containing a newline the overlap
result has its whitespace collapsed to single spaces, so it is not a
trailing substring of the source text. -/
theorem C4_counterexample :
    getOverlapText "a\nb".data 5 = "a b".data ∧
      ¬ ("a b".data <:+ "a\nb".data) := by
  decide

/-- C4 (amended): for every sourceText and budget > 0, the overlap text
is word-aligned (it is the loop join of a whole trailing run of the
whitespace-split pieces — no word is cut) and is a trailing substring of
the whitespace-normalized sourceText (pieces joined by single spaces,
trailing whitespace dropped) rather than of sourceText itself. -/
theorem C4_overlap_word_aligned (s : Str) (b : Nat) (hb : 0 < b) :
    (∃ l₂, l₂ <:+ splitWs s ∧ getOverlapText s b = codeJoin l₂) ∧
    getOverlapText s b <:+ codeJoin (splitWs s) := by
  obtain ⟨l₁, l₂, hsplit, heq, _⟩ := getOverlapText_spec s b hb
  refine ⟨⟨l₂, ⟨l₁, hsplit.symm⟩, heq⟩, ?_⟩
  rw [heq, hsplit]
  exact codeJoin_suffix_append l₁ l₂

/-- C4 witness at sourceText "hello world", budget 1. -/
theorem C4_witness :
    0 < 1 ∧
    ((∃ l₂, l₂ <:+ splitWs "hello world".data ∧
        getOverlapText "hello world".data 1 = codeJoin l₂) ∧
      getOverlapText "hello world".data 1 <:+ codeJoin (splitWs "hello world".data)) :=
  ⟨by decide, C4_overlap_word_aligned "hello world".data 1 (by decide)⟩

/-- C5: the overlap loop accumulates whole words backward and stops as
soon as the token count reaches or exceeds the budget, keeping the
overflowing word: either the result takes all pieces of the source, or
the result's token count reached the budget while the result minus its
first word is strictly under budget. -/
theorem C5_overlap_overshoot_at_most_one_word (s : Str) (b : Nat) (hb : 0 < b) :
    ∃ l₁ l₂, splitWs s = l₁ ++ l₂ ∧ getOverlapText s b = codeJoin l₂ ∧
      (l₁ = [] ∨
        (b ≤ countTokens (getOverlapText s b) ∧
         countTokens (codeJoin l₂.tail) < b)) := by
  obtain ⟨l₁, l₂, hsplit, heq, hstop⟩ := getOverlapText_spec s b hb
  refine ⟨l₁, l₂, hsplit, heq, ?_⟩
  rcases hstop with h | h
  · exact Or.inl h
  · exact Or.inr ⟨heq ▸ h.1, h.2⟩

/-- C5 witness at sourceText "a b c", budget 2: the loop stops after two
words. -/
theorem C5_witness :
    0 < 2 ∧
    ∃ l₁ l₂, splitWs "a b c".data = l₁ ++ l₂ ∧
      getOverlapText "a b c".data 2 = codeJoin l₂ ∧
      (l₁ = [] ∨
        (2 ≤ countTokens (getOverlapText "a b c".data 2) ∧
         countTokens (codeJoin l₂.tail) < 2)) :=
  ⟨by decide, C5_overlap_overshoot_at_most_one_word "a b c".data 2 (by decide)⟩

/-- C10 counterexample: with a trailing space in the source, the result
is not the single-space join of any suffix of the split list (the suffix
list has a trailing empty piece whose join carries a trailing space the
loop never produces); and with a budget equal to the token count and a
leading space, the result is not the whole normalized text. -/
theorem C10_counterexample :
    (getOverlapText "a ".data 5 = "a".data ∧
      ∀ l₂ ∈ (splitWs "a ".data).tails,
        sepJoin [' '] l₂ ≠ getOverlapText "a ".data 5) ∧
    (countTokens " a".data ≤ 1 ∧
      getOverlapText " a".data 1 ≠ sepJoin [' '] (splitWs " a".data) ∧
      getOverlapText " a".data 1 ≠ codeJoin (splitWs " a".data)) := by
  decide

/-- C10 (amended): for every sourceText and budget > 0, the result is the
loop join (single spaces, except that nothing is inserted next to an
empty accumulated suffix, so trailing whitespace contributes nothing) of
some suffix of the whitespace-split piece list — in particular all
internal whitespace is collapsed to single spaces; and when the budget is
at or above the whole text's token count, every piece left out of the
suffix is empty, so the result contains every word of the text. -/
theorem C10_overlap_is_join_of_suffix (s : Str) (b : Nat) (hb : 0 < b) :
    ∃ l₁ l₂, splitWs s = l₁ ++ l₂ ∧ getOverlapText s b = codeJoin l₂ ∧
      (countTokens s ≤ b → ∀ p ∈ l₁, p = []) := by
  obtain ⟨l₁, l₂, hsplit, heq, hstop⟩ := getOverlapText_spec s b hb
  refine ⟨l₁, l₂, hsplit, heq, ?_⟩
  intro hcount p hp
  rcases hstop with h | h
  · subst h; cases hp
  · have hwf : ∀ q ∈ splitWs s, ∀ c ∈ q, isWs c = false := splitWs_ws_free s
    have hwf2 : ∀ q ∈ l₂, ∀ c ∈ q, isWs c = false := by
      intro q hq
      exact hwf q (by rw [hsplit]; exact List.mem_append_right l₁ hq)
    have h1 : countTokens (codeJoin l₂) = nwords l₂ := count_codeJoin hwf2
    have h2 : countTokens s = nwords l₁ + nwords l₂ := by
      rw [count_eq_nwords_splitWs, hsplit, nwords_append]
    have h3 : nwords l₁ = 0 := by omega
    have h4 : l₁.filter (fun q => !q.isEmpty) = [] :=
      List.length_eq_zero.mp h3
    by_cases hpe : p.isEmpty
    · exact List.isEmpty_iff.mp hpe
    · exfalso
      have hmem : p ∈ l₁.filter (fun q => !q.isEmpty) :=
        List.mem_filter.mpr ⟨hp, by simpa using hpe⟩
      rw [h4] at hmem
      cases hmem

/-- C10 witness at sourceText "x y", budget 5 (above the token count). -/
theorem C10_witness :
    0 < 5 ∧
    ∃ l₁ l₂, splitWs "x y".data = l₁ ++ l₂ ∧
      getOverlapText "x y".data 5 = codeJoin l₂ ∧
      (countTokens "x y".data ≤ 5 → ∀ p ∈ l₁, p = []) :=
  ⟨by decide, C10_overlap_is_join_of_suffix "x y".data 5 (by decide)⟩

/-! ### Lemmas about id strings -/

theorem charVal_digitChar : ∀ d : Nat, d < 10 → charVal (Nat.digitChar d) = d := by
  decide

theorem strToNat_append_digit (s : Str) (c : Char) :
    strToNat (s ++ [c]) = strToNat s * 10 + charVal c := by
  unfold strToNat
  rw [List.foldl_append]
  rfl

theorem strToNat_natToStrGo : ∀ (fuel n : Nat), n < fuel →
    strToNat (natToStrGo fuel n) = n := by
  intro fuel
  induction fuel with
  | zero => intro n h; omega
  | succ f ih =>
    intro n h
    by_cases h0 : n = 0
    · subst h0; simp [natToStrGo, strToNat]
    · rw [show natToStrGo (f + 1) n = natToStrGo f (n / 10) ++ [Nat.digitChar (n % 10)] by
        simp [natToStrGo, h0]]
      rw [strToNat_append_digit]
      have hd : n / 10 < f := by
        have h1 : n / 10 < n := Nat.div_lt_self (by omega) (by omega)
        omega
      rw [ih (n / 10) hd, charVal_digitChar (n % 10) (by omega)]
      omega

theorem strToNat_natToStr (n : Nat) : strToNat (natToStr n) = n := by
  by_cases h0 : n = 0
  · subst h0; decide
  · rw [show natToStr n = natToStrGo (n + 1) n by simp [natToStr, h0]]
    exact strToNat_natToStrGo (n + 1) n (by omega)

theorem strToNat_replicate_zero (k : Nat) (s : Str) :
    strToNat (List.replicate k '0' ++ s) = strToNat s := by
  induction k with
  | zero => rfl
  | succ m ih =>
    rw [List.replicate_succ, List.cons_append]
    show strToNat ('0' :: (List.replicate m '0' ++ s)) = _
    unfold strToNat
    rw [List.foldl_cons, show (0 * 10 + charVal '0') = 0 by decide]
    exact ih

theorem strToNat_pad_natToStr (n : Nat) :
    strToNat (padStart4 (natToStr n)) = n := by
  unfold padStart4
  rw [strToNat_replicate_zero, strToNat_natToStr]

theorem chunkIdStr_injective : Function.Injective chunkIdStr := by
  intro m n h
  unfold chunkIdStr at h
  have h2 := List.append_cancel_left h
  have h3 := congrArg strToNat h2
  rwa [strToNat_pad_natToStr, strToNat_pad_natToStr] at h3

/-! ### Lemmas about the chunk assembler -/

theorem assembleGo_length (u t sec : Str) (total sid : Nat) :
    ∀ (cs : List Str) (i : Nat),
      (assembleGo u t sec total sid cs i).length = cs.length := by
  intro cs
  induction cs with
  | nil => intro i; rfl
  | cons c cs ih => intro i; simp [assembleGo, ih]

theorem assembleGo_map_content (u t sec : Str) (total sid : Nat) :
    ∀ (cs : List Str) (i : Nat),
      (assembleGo u t sec total sid cs i).map (fun c => c.content) = cs := by
  intro cs
  induction cs with
  | nil => intro i; rfl
  | cons c cs ih => intro i; simp [assembleGo, ih]

theorem assembleGo_map_index (u t sec : Str) (total sid : Nat) :
    ∀ (cs : List Str) (i : Nat),
      (assembleGo u t sec total sid cs i).map (fun c => c.metadata.chunk_index) =
        List.range' i cs.length := by
  intro cs
  induction cs with
  | nil => intro i; rfl
  | cons c cs ih =>
    intro i
    simp [assembleGo, ih, List.range']

theorem assembleGo_map_id (u t sec : Str) (total sid : Nat) :
    ∀ (cs : List Str) (i : Nat),
      (assembleGo u t sec total sid cs i).map (fun c => c.id) =
        (List.range' (sid + i) cs.length).map chunkIdStr := by
  intro cs
  induction cs with
  | nil => intro i; rfl
  | cons c cs ih =>
    intro i
    have e : sid + (i + 1) = (sid + i) + 1 := by omega
    simp [assembleGo, ih, List.range', e]

theorem assembleGo_mem (u t sec : Str) (total sid : Nat) :
    ∀ (cs : List Str) (i : Nat) (c : Chunk), c ∈ assembleGo u t sec total sid cs i →
      c.metadata.total_chunks = total ∧ c.tokenCount = countTokens c.content ∧
      c.metadata.source_url = u ∧ c.metadata.title = t ∧
      c.metadata.sectionName = sec := by
  intro cs
  induction cs with
  | nil => intro i c hc; cases hc
  | cons x xs ih =>
    intro i c hc
    rcases List.mem_cons.mp hc with h1 | h2
    · subst h1
      exact ⟨rfl, rfl, rfl, rfl, rfl⟩
    · exact ih (i + 1) c h2

theorem chunkPagesGo_map_id (n k : Nat) : ∀ (ps : List ExtractedPage) (sid : Nat),
    (chunkPagesGo n k ps sid).map (fun c => c.id) =
      (List.range' sid (chunkPagesGo n k ps sid).length).map chunkIdStr := by
  intro ps
  induction ps with
  | nil => intro sid; rfl
  | cons p ps ih =>
    intro sid
    simp only [chunkPagesGo]
    rw [List.map_append, assembleGo_map_id, ih (sid + (chunkContent p.content n k).length),
      List.length_append, assembleGo_length]
    rw [← List.map_append]
    congr 1
    have hr := List.range'_append sid (chunkContent p.content n k).length
      (chunkPagesGo n k ps (sid + (chunkContent p.content n k).length)).length 1
    simp only [Nat.one_mul, Nat.add_zero] at hr ⊢
    rw [hr]
    congr 1
    omega

/-! ### Fuel lemmas for the loops of chunkContent -/

theorem sentLoopFuel_spec (n k : Nat) : ∀ (l : List Str) (fuel : Nat) (st : CCState),
    l.length ≤ fuel →
    sentLoopFuel n k fuel l st = some (l.foldl (sentStep n k) st, fuel - l.length) := by
  intro l
  induction l with
  | nil => intro fuel st _; cases fuel <;> simp [sentLoopFuel]
  | cons x xs ih =>
    intro fuel st h
    cases fuel with
    | zero => simp at h
    | succ f =>
      rw [show sentLoopFuel n k (f + 1) (x :: xs) st =
        sentLoopFuel n k f xs (sentStep n k st x) from rfl]
      rw [ih f (sentStep n k st x) (by simpa using h)]
      simp [List.foldl_cons, Nat.succ_sub_succ]

theorem paraCost_cons (n : Nat) (p : Str) (ps : List Str) :
    paraCost n (p :: ps) =
      1 + (if countTokens p > n then (splitSents p).length else 0) + paraCost n ps := by
  simp [paraCost, Nat.add_assoc]

theorem paraLoopFuel_spec (n k : Nat) : ∀ (ps : List Str) (fuel : Nat) (st : CCState),
    paraCost n ps ≤ fuel →
    paraLoopFuel n k fuel ps st =
      some (ps.foldl (paraStep n k) st, fuel - paraCost n ps) := by
  intro ps
  induction ps with
  | nil => intro fuel st _; cases fuel <;> simp [paraLoopFuel, paraCost]
  | cons p ps ih =>
    intro fuel st h
    rw [paraCost_cons] at h
    cases fuel with
    | zero => omega
    | succ f =>
      by_cases hbig : countTokens p > n
      · rw [show paraLoopFuel n k (f + 1) (p :: ps) st =
          (match sentLoopFuel n k f (splitSents p) (flushChunk st) with
            | none => none
            | some (st2, fuel2) => paraLoopFuel n k fuel2 ps st2) by
            simp [paraLoopFuel, hbig]]
        rw [sentLoopFuel_spec n k (splitSents p) f (flushChunk st)
          (by rw [if_pos hbig] at h; omega)]
        show paraLoopFuel n k (f - (splitSents p).length) ps
          ((splitSents p).foldl (sentStep n k) (flushChunk st)) = _
        rw [ih (f - (splitSents p).length)
          ((splitSents p).foldl (sentStep n k) (flushChunk st))
          (by rw [if_pos hbig] at h; omega)]
        rw [List.foldl_cons, show paraStep n k st p =
          (splitSents p).foldl (sentStep n k) (flushChunk st) by
            unfold paraStep; rw [if_pos hbig]]
        have harith : f - (splitSents p).length - paraCost n ps =
            f + 1 - paraCost n (p :: ps) := by
          rw [paraCost_cons, if_pos hbig]
          omega
        rw [harith]
      · rw [show paraLoopFuel n k (f + 1) (p :: ps) st =
          paraLoopFuel n k f ps (paraSmall n k st p) by simp [paraLoopFuel, hbig]]
        rw [ih f (paraSmall n k st p) (by rw [if_neg hbig] at h; omega)]
        rw [List.foldl_cons, show paraStep n k st p = paraSmall n k st p by
          unfold paraStep; rw [if_neg hbig]]
        have harith : f - paraCost n ps = f + 1 - paraCost n (p :: ps) := by
          rw [paraCost_cons, if_neg hbig]
          omega
        rw [harith]

theorem paraCost_le (n : Nat) : ∀ (ps : List Str),
    paraCost n ps ≤ ps.length + (ps.map (fun p => (splitSents p).length)).sum := by
  intro ps
  induction ps with
  | nil => simp [paraCost]
  | cons p ps ih =>
    rw [paraCost_cons]
    simp only [List.length_cons, List.map_cons, List.sum_cons]
    by_cases hbig : countTokens p > n
    · rw [if_pos hbig]; omega
    · rw [if_neg hbig]; omega

/-! ### Claim C6 -/

/-- C6: across a full `chunkPages` run the ids are assigned by a single
counter starting at 0 that is never reset between pages: the id list is
exactly `chunk-NNNN` (zero-padded to 4 digits, see `chunkIdStr`) applied
to 0, 1, 2, ... in emission order, hence pairwise distinct and strictly
increasing. -/
theorem C6_ids_unique_monotonic (pages : List ExtractedPage) (options : ChunkOptions) :
    (chunkPages pages options).map (fun c => c.id) =
      (List.range (chunkPages pages options).length).map chunkIdStr ∧
    ((chunkPages pages options).map (fun c => c.id)).Nodup := by
  have h := chunkPagesGo_map_id (resolveChunkSize options)
    (options.chunkOverlap.getD 50) pages 0
  have e : chunkPages pages options = chunkPagesGo (resolveChunkSize options)
      (options.chunkOverlap.getD 50) pages 0 := rfl
  constructor
  · rw [e, h, List.range_eq_range']
  · rw [e, h]
    exact List.Nodup.map chunkIdStr_injective (List.nodup_range' 0 _)

/-! ### Claim C7 -/

theorem chunkPagesGo_blocks (n k : Nat) : ∀ (ps : List ExtractedPage) (sid : Nat),
    ∃ blocks : List (List Chunk),
      chunkPagesGo n k ps sid = blocks.flatten ∧
      List.Forall₂ (fun (page : ExtractedPage) (B : List Chunk) =>
        B.map (fun c => c.content) = chunkContent page.content n k ∧
        B.map (fun c => c.metadata.chunk_index) = List.range B.length ∧
        ∀ c ∈ B, c.metadata.total_chunks = B.length ∧
          c.tokenCount = countTokens c.content) ps blocks := by
  intro ps
  induction ps with
  | nil => intro sid; exact ⟨[], rfl, List.Forall₂.nil⟩
  | cons p ps ih =>
    intro sid
    obtain ⟨blocks, hflat, hfa⟩ := ih (sid + (chunkContent p.content n k).length)
    refine ⟨assembleGo p.url p.title (p.headings.headD [])
      (chunkContent p.content n k).length sid (chunkContent p.content n k) 0 ::
      blocks, ?_, ?_⟩
    · simp only [chunkPagesGo, List.flatten_cons]
      rw [hflat]
    · refine List.Forall₂.cons ⟨?_, ?_, ?_⟩ hfa
      · exact assembleGo_map_content _ _ _ _ _ _ _
      · rw [assembleGo_map_index, assembleGo_length, List.range_eq_range']
      · intro c hc
        have hm := assembleGo_mem _ _ _ _ _ _ _ c hc
        rw [assembleGo_length]
        exact ⟨hm.1, hm.2.1⟩

/-- C7: for every page processed by `chunkPages`, the output is the
concatenation of per-page blocks in page order; within each block the
chunk contents are exactly the page's `chunkContent` list in document
order, the `chunk_index` values are 0, 1, ..., total-1 with no gaps,
every chunk's `total_chunks` is the block length, and every chunk's
`tokenCount` is `countTokens` of its content. -/
theorem C7_per_page_order_and_indices (pages : List ExtractedPage)
    (options : ChunkOptions) :
    ∃ blocks : List (List Chunk),
      chunkPages pages options = blocks.flatten ∧
      List.Forall₂ (fun (page : ExtractedPage) (B : List Chunk) =>
        B.map (fun c => c.content) = chunkContent page.content
          (resolveChunkSize options) (options.chunkOverlap.getD 50) ∧
        B.map (fun c => c.metadata.chunk_index) = List.range B.length ∧
        ∀ c ∈ B, c.metadata.total_chunks = B.length ∧
          c.tokenCount = countTokens c.content) pages blocks :=
  chunkPagesGo_blocks (resolveChunkSize options) (options.chunkOverlap.getD 50)
    pages 0

/-! ### Claim C8 -/

/-- C8: when `chunkSize` is falsy (zero) `chunkPages` substitutes the
format default (rag 500, finetune-openai / finetune-alpaca 1000,
markdown 2000, anything else 500); the standalone `chunkText` defaults
chunkSize to 500 and chunkOverlap to 50, emits chunks with empty
source_url / title / section, and numbers ids from 0 by position in its
own output. -/
theorem C8_defaults_and_chunkText :
    (∀ (pages : List ExtractedPage) (ov : Option Nat) (fmt : Str),
      chunkPages pages ⟨0, ov, fmt⟩ =
        chunkPages pages ⟨getDefaultChunkSize fmt, ov, fmt⟩) ∧
    getDefaultChunkSize "rag".data = 500 ∧
    getDefaultChunkSize "finetune-openai".data = 1000 ∧
    getDefaultChunkSize "finetune-alpaca".data = 1000 ∧
    getDefaultChunkSize "markdown".data = 2000 ∧
    (∀ fmt : Str, fmt ≠ "rag".data → fmt ≠ "finetune-openai".data →
      fmt ≠ "finetune-alpaca".data → fmt ≠ "markdown".data →
      getDefaultChunkSize fmt = 500) ∧
    (∀ text : Str, chunkText text ⟨none, none⟩ = chunkText text ⟨some 500, some 50⟩) ∧
    (∀ (text : Str) (opts : ChunkTextOptions) (c : Chunk), c ∈ chunkText text opts →
      c.metadata.source_url = [] ∧ c.metadata.title = [] ∧
      c.metadata.sectionName = []) ∧
    (∀ (text : Str) (opts : ChunkTextOptions),
      (chunkText text opts).map (fun c => c.id) =
        (List.range (chunkText text opts).length).map chunkIdStr) := by
  refine ⟨?_, by decide, by decide, by decide, by decide, ?_, ?_, ?_, ?_⟩
  · intro pages ov fmt
    have hres : resolveChunkSize ⟨0, ov, fmt⟩ =
        resolveChunkSize ⟨getDefaultChunkSize fmt, ov, fmt⟩ := by
      have hne : getDefaultChunkSize fmt ≠ 0 := by
        unfold getDefaultChunkSize
        split_ifs <;> omega
      simp [resolveChunkSize, hne]
    show chunkPagesGo (resolveChunkSize ⟨0, ov, fmt⟩) (ov.getD 50) pages 0 =
      chunkPagesGo (resolveChunkSize ⟨getDefaultChunkSize fmt, ov, fmt⟩)
        (ov.getD 50) pages 0
    rw [hres]
  · intro fmt h1 h2 h3 h4
    unfold getDefaultChunkSize
    rw [if_neg h1, if_neg h2, if_neg h3, if_neg h4]
  · intro text
    rfl
  · intro text opts c hc
    simp only [chunkText] at hc
    have hm := assembleGo_mem _ _ _ _ _ _ _ c hc
    exact ⟨hm.2.2.1, hm.2.2.2.1, hm.2.2.2.2⟩
  · intro text opts
    simp only [chunkText]
    rw [assembleGo_map_id, assembleGo_length, List.range_eq_range']

/-- C8 witness: an unknown format falls back to 500, and the single chunk
of `chunkText "Hi."` carries empty source metadata. -/
theorem C8_witness :
    getDefaultChunkSize "custom".data = 500 ∧
    ((⟨chunkIdStr 0, "Hi.".data, 1, ⟨[], [], [], 0, 1⟩⟩ : Chunk).metadata.source_url = [] ∧
     (⟨chunkIdStr 0, "Hi.".data, 1, ⟨[], [], [], 0, 1⟩⟩ : Chunk).metadata.title = [] ∧
     (⟨chunkIdStr 0, "Hi.".data, 1, ⟨[], [], [], 0, 1⟩⟩ : Chunk).metadata.sectionName = []) :=
  ⟨C8_defaults_and_chunkText.2.2.2.2.2.1 "custom".data (by decide) (by decide)
      (by decide) (by decide),
    C8_defaults_and_chunkText.2.2.2.2.2.2.2.1 "Hi.".data ⟨none, none⟩
      ⟨chunkIdStr 0, "Hi.".data, 1, ⟨[], [], [], 0, 1⟩⟩ (by decide)⟩

/-! ### Claim C9 -/

/-- C9: `chunkContent` terminates on every input for every chunkSize and
overlap — including overlap ≥ chunkSize: the number of loop iterations is
exactly one per paragraph plus one per sentence of each oversized
paragraph, so the fuel-counted engine already succeeds with fuel equal to
the paragraph count plus the total sentence count, a bound derived from
the input alone, independent of chunkSize and overlap. -/
theorem C9_terminates_within_input_bound (content : Str) (n k fuel : Nat)
    (hfuel : (splitParas content).length +
      ((splitParas content).map (fun p => (splitSents p).length)).sum ≤ fuel) :
    chunkContentFuel fuel content n k = some (chunkContent content n k) := by
  have hcost : paraCost n (splitParas content) ≤ fuel := by
    have h1 := paraCost_le n (splitParas content)
    omega
  unfold chunkContentFuel
  rw [paraLoopFuel_spec n k (splitParas content) fuel ⟨[], [], 0⟩ hcost]
  rfl

/-- C9 witness: a one-paragraph three-sentence input with overlap 5 far
above chunkSize 1 terminates within the input-derived bound of 4
iterations. -/
theorem C9_witness :
    ((splitParas "Aa. Bb. Cc.".data).length +
      ((splitParas "Aa. Bb. Cc.".data).map (fun p => (splitSents p).length)).sum ≤ 4) ∧
    chunkContentFuel 4 "Aa. Bb. Cc.".data 1 5 =
      some (chunkContent "Aa. Bb. Cc.".data 1 5) :=
  ⟨by decide, C9_terminates_within_input_bound "Aa. Bb. Cc.".data 1 5 4 (by decide)⟩

end ContextLayer
